import Mathlib

/-!
Verification of the diff annotation and highlighting engine (`highlightDiff`)
and the timeline-item display dispatch of the `changes` repository.

The hunk text is a byte sequence; bytes are modelled as `Nat`.  The engine is
embedded shallowly: `bytes.Split(src, "\n")` becomes `splitNL`, the
line-start offset loop becomes `lineStarts`, and the main scanning loop over
the classified lines becomes `stepLine` folded over the line indices.  The
external character-level differ (`highlight_diff.HighlightedDiffFunc`) is a
parameter of the embedding; the external merger/splicer
(`annotate.Annotate`) is modelled from the spec.
-/

set_option autoImplicit false

namespace Changes

abbrev Byte := Nat

/-- Line marker classification (spec §4.1). -/

inductive Marker where
  | Context
  | Delete
  | Insert
  | Other
deriving DecidableEq

/-- Model of `bytes.Split(src, []byte("\n"))`: split a byte sequence at every
newline byte (10).  The result always has one more element than the number
of newline bytes; in particular it is never empty. -/

def splitNL : List Byte → List (List Byte)
  | [] => [[]]
  | b :: rest =>
    if b = 10 then [] :: splitNL rest
    else
      match splitNL rest with
      | [] => [[b]]
      | l :: ls => (b :: l) :: ls

/-- Inverse of `splitNL`: join lines with a newline byte between them. -/

def joinNL : List (List Byte) → List Byte
  | [] => []
  | [l] => l
  | l :: l' :: ls => l ++ 10 :: joinNL (l' :: ls)

/-- Model of `lineFirstChar` from the source: the first byte of the line, or 0 for an
empty line. -/

def lineFirstChar (l : List Byte) : Byte := l.headD 0

/-- Classification of a line by its first byte: `-` (45) is `Delete`,
`+` (43) is `Insert`, `@` (64) is `Other` (hunk header), everything else —
including the empty line — is `Context`. -/

def classify (l : List Byte) : Marker :=
  if lineFirstChar l = 43 then Marker.Insert
  else if lineFirstChar l = 45 then Marker.Delete
  else if lineFirstChar l = 64 then Marker.Other
  else Marker.Context

/-- The line-start offsets: `lineStarts[i] = offset`, then
`offset += len(lines[i]) + 1`. -/

def lineStartsFrom : Nat → List (List Byte) → List Nat
  | _, [] => []
  | off, l :: ls => off :: lineStartsFrom (off + l.length + 1) ls

def lineStarts (lines : List (List Byte)) : List Nat := lineStartsFrom 0 lines

/-- Model of `annotate.Annotation`: a half-open byte range `[start, stop)` with the
markup to inject before (`left`) and after (`right`) it.  The Go fields are
`Start`/`End`/`Left`/`Right`/`WantInner`; `End` is renamed `stop`. -/

structure Ann where
  start : Nat
  stop : Nat
  left : String
  right : String
  wantInner : Nat
deriving DecidableEq

def gdOpen : String := "<span class=\"gd input-block\">"

def giOpen : String := "<span class=\"gi input-block\">"

def spanClose : String := "</span>"

/-- Record of one invocation of the external character-level differ
(`highlight_diff.HighlightedDiffFunc`): the two content strings built by the
caller and the two base offsets passed as offset adjustment. -/

structure IntralineCall where
  leftContent : List Byte
  rightContent : List Byte
  baseLeft : Nat
  baseRight : Nat
deriving DecidableEq

/-- The external character-level differ, as seen by `highlightDiff`: from
`(leftContent, rightContent, baseLeft, baseRight)` it produces the two
sections of already-offset-adjusted annotations
(`sectionSegments[0]`, `sectionSegments[1]`). -/

abbrev Differ := List Byte → List Byte → Nat → Nat → List Ann × List Ann

/-- State of the main scanning loop of `highlightDiff`.  `lastDel`/`lastIns`
model the `-1`-or-index cursors as `Option Nat`.  `anns` is the annotation
list built by the loop.  `blocks` and `calls` are ghost records of the
emitted replace blocks `(lastDel, lastIns, closeIndex)` and of the differ
invocations; they add no behaviour. -/

structure LoopState where
  lastDel : Option Nat
  lastIns : Option Nat
  anns : List Ann
  blocks : List (Nat × Nat × Nat)
  calls : List IntralineCall
deriving DecidableEq

/-- Construction of `leftContent`/`rightContent`: for each line index in
`[lo, hi)`, a NUL byte (the source writes `"\x00"`), then the line with its
first byte dropped (`lines[line][1:]`), then a newline. -/

def contentOfLines (lines : List (List Byte)) (lo hi : Nat) : List Byte :=
  ((List.range' lo (hi - lo)).map
    (fun j => (0 :: (lines.getD j []).drop 1) ++ [10])).flatten

/-- The body of the default (closing) branch of the loop: append the two
background annotations, and unless the closing line is a hunk header
(`'@' != lineFirstChar`), build the two content strings and invoke the
differ. `d`/`v` are the effective `lastDel`/`lastIns` after the degenerate
fill-in. -/

def emitBlock (differ : Differ) (lines : List (List Byte)) (starts : List Nat)
    (i : Nat) (m : Marker) (d v : Nat) (s : LoopState) : LoopState :=
  let bL := starts.getD d 0
  let eL := starts.getD v 0
  let bR := starts.getD v 0
  let eR := starts.getD i 0
  let withBg := s.anns ++ [⟨bL, eL, gdOpen, spanClose, 0⟩, ⟨bR, eR, giOpen, spanClose, 0⟩]
  if m = Marker.Other then
    { s with anns := withBg, blocks := s.blocks ++ [(d, v, i)] }
  else
    let lc := contentOfLines lines d v
    let rc := contentOfLines lines v i
    let segs := differ lc rc bL bR
    { s with
      anns := withBg ++ segs.1 ++ segs.2,
      blocks := s.blocks ++ [(d, v, i)],
      calls := s.calls ++ [⟨lc, rc, bL, bR⟩] }

/-- One iteration of the main loop of `highlightDiff` at line `i`:
`case '+'`: open an insert run if none is open; `case '-'`: open a delete
run if none is open; `default`: close any open block (with the degenerate
fill-in `lastDel = lastIns` resp. `lastIns = lineIndex`) and reset both
cursors. -/

def stepLine (differ : Differ) (lines : List (List Byte)) (starts : List Nat)
    (i : Nat) (s : LoopState) : LoopState :=
  match classify (lines.getD i []) with
  | Marker.Insert =>
    match s.lastIns with
    | none => { s with lastIns := some i }
    | some _ => s
  | Marker.Delete =>
    match s.lastDel with
    | none => { s with lastDel := some i }
    | some _ => s
  | m =>
    let s1 :=
      match s.lastDel, s.lastIns with
      | none, none => s
      | none, some v => emitBlock differ lines starts i m v v s
      | some d, none => emitBlock differ lines starts i m d i s
      | some d, some v => emitBlock differ lines starts i m d v s
    { s1 with lastDel := none, lastIns := none }

def initLoopState : LoopState :=
  { lastDel := none, lastIns := none, anns := [], blocks := [], calls := [] }

/-- The whole `for lineIndex := 0; lineIndex < len(lines); lineIndex++` loop. -/

def runLines (differ : Differ) (lines : List (List Byte)) (starts : List Nat) : LoopState :=
  (List.range lines.length).foldl (fun s i => stepLine differ lines starts i s) initLoopState

/-- The line-splitting, offset computation and scanning loop of
`highlightDiff` (src lines 130–192). -/

def highlightDiffCore (differ : Differ) (src : List Byte) : LoopState :=
  runLines differ (splitNL src) (lineStarts (splitNL src))

/-- Modelled from the spec: `highlight_diff.Annotate(src)` is the general
source-code syntax highlighter, which §1 places out of scope ("general
Markdown/source-code syntax highlighting"); it is modelled as contributing
no annotations and no error. -/

def highlighterAnns (_src : List Byte) : List Ann := []

/-- The full annotation list collected by `highlightDiff` before sorting:
the syntax-highlighter annotations followed by everything the scanning loop
appended. -/

def fullAnns (differ : Differ) (src : List Byte) : List Ann :=
  highlighterAnns src ++ (highlightDiffCore differ src).anns

/-- Two annotations partially overlap: their half-open ranges intersect but
neither contains the other (spec §3, ordering invariant). -/

def PartialOverlap (a b : Ann) : Prop :=
  a.start < b.start ∧ b.start < a.stop ∧ a.stop < b.stop

instance (a b : Ann) : Decidable (PartialOverlap a b) := by
  unfold PartialOverlap; infer_instance

/-- Modelled from the spec (§4.4): the merger's validation detects any pair
of annotations that partially overlaps (in either order). -/

def hasPartialOverlap (anns : List Ann) : Bool :=
  anns.any (fun a => anns.any (fun b => decide (PartialOverlap a b)))

/-- Modelled from the spec (§4.4): the `sort.Sort(anns)` ordering — start
offset ascending, and for equal starts wider (larger `stop`) spans first. -/

def annLE (a b : Ann) : Bool :=
  decide (a.start < b.start ∨ (a.start = b.start ∧ b.stop ≤ a.stop))

def insertAnn (a : Ann) : List Ann → List Ann
  | [] => [a]
  | b :: rest => if annLE a b then a :: b :: rest else b :: insertAnn a rest

/-- Modelled from the spec (§4.4): a total-order sort of the annotation
list (the Go code calls the standard library sort). -/

def sortAnns : List Ann → List Ann
  | [] => []
  | a :: rest => insertAnn a (sortAnns rest)

/-- Modelled from the spec (§4.5): the HTML-escaping primitive
(`template.HTMLEscape`), escaping `<`, `>`, `&` and the two quote
characters. -/

def htmlEscapeByte (b : Byte) : List Byte :=
  if b = 60 then [38, 108, 116, 59]
  else if b = 62 then [38, 103, 116, 59]
  else if b = 38 then [38, 97, 109, 112, 59]
  else if b = 39 then [38, 35, 51, 57, 59]
  else if b = 34 then [38, 35, 51, 52, 59]
  else [b]

def strBytes (s : String) : List Byte := s.data.map Char.toNat

/-- Modelled from the spec (§4.5): the splicer walks the text left to
right; at each offset it emits the closing markup of annotations ending
there (innermost first), then the opening markup of annotations starting
there, then the escaped original byte. -/

def spliceEscape (src : List Byte) (anns : List Ann) : List Byte :=
  ((List.range (src.length + 1)).map (fun pos =>
    (((anns.filter (fun a => a.stop == pos)).reverse.map (fun a => strBytes a.right)).flatten)
    ++ (((anns.filter (fun a => a.start == pos)).map (fun a => strBytes a.left)).flatten)
    ++ (if pos < src.length then htmlEscapeByte (src.getD pos 0) else []))).flatten

/-- Modelled from the spec (§4.4, §6): `annotate.Annotate(src, anns,
template.HTMLEscape)` — any partially overlapping annotation pair is an
invariant violation and is rejected with an error, never silently
repaired; otherwise the spliced, escaped output is produced.  The Go pair
`([]byte, error)` is modelled as `Option (List Byte) × Option String`. -/

def annotateModel (src : List Byte) (anns : List Ann) :
    Option (List Byte) × Option String :=
  if hasPartialOverlap anns then (none, some "annotations overlap")
  else (some (spliceEscape src anns), none)

/-- Model of `highlightDiff` (src lines 124–202): collect the annotations, sort
them, splice; `if err != nil { return nil, err }` — on the error path the
returned byte slice is nil (`none`). -/

def highlightDiffModel (differ : Differ) (src : List Byte) :
    Option (List Byte) × Option String :=
  match annotateModel src (sortAnns (fullAnns differ src)) with
  | (out, none) => (out, none)
  | (_, some e) => (none, some e)

/-! ### display.go: timeline items -/

/-- Model of `issues.Comment`, restricted to the fields `display.go` reads. -/

structure IssuesComment where
  ID : Nat
  CreatedAt : Int
deriving DecidableEq

/-- Model of `issues.Event`, restricted to the fields `display.go` reads. -/

structure IssuesEvent where
  ID : Nat
  CreatedAt : Int
deriving DecidableEq

/-- The dynamic value stored in the `TimelineItem interface{}` field: an
`issues.Comment`, an `issues.Event`, or a value of any other dynamic type
(carrying its type name, as printed by `%T`). -/

inductive TimelineItemValue where
  | comment (c : IssuesComment)
  | event (e : IssuesEvent)
  | other (typeName : String)
deriving DecidableEq

/-- Structure `timelineItem` from display.go. -/

structure timelineItem where
  TimelineItem : TimelineItemValue
deriving DecidableEq

/-- Method `TemplateName`: a Go panic is modelled as `Except.error`. -/

def timelineItem.TemplateName (i : timelineItem) : Except String String :=
  match i.TimelineItem with
  | TimelineItemValue.comment _ => Except.ok "comment"
  | TimelineItemValue.event _ => Except.ok "event"
  | TimelineItemValue.other t => Except.error ("unknown item type " ++ t)

def timelineItem.CreatedAt (i : timelineItem) : Except String Int :=
  match i.TimelineItem with
  | TimelineItemValue.comment c => Except.ok c.CreatedAt
  | TimelineItemValue.event e => Except.ok e.CreatedAt
  | TimelineItemValue.other t => Except.error ("unknown item type " ++ t)

def timelineItem.ID (i : timelineItem) : Except String Nat :=
  match i.TimelineItem with
  | TimelineItemValue.comment c => Except.ok c.ID
  | TimelineItemValue.event e => Except.ok e.ID
  | TimelineItemValue.other t => Except.error ("unknown item type " ++ t)

/-! ### The scanning-loop invariant -/

/-- Every line in `[lo, hi)` is a `Delete` or `Insert` line (a line that
would keep a replace block open). -/

def NoCloser (lines : List (List Byte)) (lo hi : Nat) : Prop :=
  ∀ j, lo ≤ j → j < hi → classify (lines.getD j []) = Marker.Delete ∨
    classify (lines.getD j []) = Marker.Insert

/-- Invariant of the scanning loop's cursors after processing lines
`[0, i)`. -/

structure StateInv (lines : List (List Byte)) (i : Nat) (s : LoopState) : Prop where
  del : ∀ d, s.lastDel = some d →
    d < i ∧ classify (lines.getD d []) = Marker.Delete ∧ NoCloser lines d i
  ins : ∀ v, s.lastIns = some v →
    v < i ∧ classify (lines.getD v []) = Marker.Insert ∧ NoCloser lines v i
  pureDel : ∀ d, s.lastDel = some d → s.lastIns = none →
    ∀ j, d ≤ j → j < i → classify (lines.getD j []) = Marker.Delete
  pureIns : ∀ v, s.lastIns = some v → s.lastDel = none →
    ∀ j, v ≤ j → j < i → classify (lines.getD j []) = Marker.Insert
  both : ∀ d v, s.lastDel = some d → s.lastIns = some v →
    d ≠ v ∧
    (d < v → ∀ j, d ≤ j → j < v → classify (lines.getD j []) = Marker.Delete) ∧
    (v < d → ∀ j, v ≤ j → j < d → classify (lines.getD j []) = Marker.Insert)

/-! ### Block-level invariants of the scan -/

/-- The delete background annotation emitted for block `b = (d, v, i)`:
span `[starts[d], starts[v])`. -/

def delAnnOf (starts : List Nat) (b : Nat × Nat × Nat) : Ann :=
  ⟨starts.getD b.1 0, starts.getD b.2.1 0, gdOpen, spanClose, 0⟩

/-- The insert background annotation emitted for block `b = (d, v, i)`:
span `[starts[v], starts[i])`. -/

def insAnnOf (starts : List Nat) (b : Nat × Nat × Nat) : Ann :=
  ⟨starts.getD b.2.1 0, starts.getD b.2.2 0, giOpen, spanClose, 0⟩

/-- The differ invocation record for block `b = (d, v, i)`. -/

def callOf (lines : List (List Byte)) (starts : List Nat) (b : Nat × Nat × Nat) :
    IntralineCall :=
  ⟨contentOfLines lines b.1 b.2.1, contentOfLines lines b.2.1 b.2.2,
    starts.getD b.1 0, starts.getD b.2.1 0⟩

/-- The differ output for block `b = (d, v, i)`. -/

def segsOf (differ : Differ) (lines : List (List Byte)) (starts : List Nat)
    (b : Nat × Nat × Nat) : List Ann × List Ann :=
  differ (contentOfLines lines b.1 b.2.1) (contentOfLines lines b.2.1 b.2.2)
    (starts.getD b.1 0) (starts.getD b.2.1 0)

/-- Structural facts about an emitted block that hold for every input:
the effective delete start is before the closing line, the effective insert
start is at or before it, the closing line is a real line that closes
(`Context` or `Other`), and no line of the block's range closes. -/

def BlockShape (lines : List (List Byte)) (b : Nat × Nat × Nat) : Prop :=
  b.1 < b.2.2 ∧ b.2.1 ≤ b.2.2 ∧ b.2.2 < lines.length ∧
  (classify (lines.getD b.2.2 []) = Marker.Context ∨
    classify (lines.getD b.2.2 []) = Marker.Other) ∧
  NoCloser lines (min b.1 b.2.1) b.2.2

/-- Run purity of an emitted block: the delete run precedes the insert run,
all lines in `[d, v)` are `Delete`, and all lines in `[v, i)` are
`Insert`. -/

def BlockRuns (lines : List (List Byte)) (b : Nat × Nat × Nat) : Prop :=
  b.1 ≤ b.2.1 ∧
  (∀ j, b.1 ≤ j → j < b.2.1 → classify (lines.getD j []) = Marker.Delete) ∧
  (∀ j, b.2.1 ≤ j → j < b.2.2 → classify (lines.getD j []) = Marker.Insert)

/-- The hypothesis under which the spec's grouping reading is accurate:
within one group (no closing line in between), an `Insert` line is never
followed by a `Delete` line. -/

def OrderedGroups (lines : List (List Byte)) : Prop :=
  ∀ k ∈ List.range lines.length, ∀ j ∈ List.range k,
    classify (lines.getD j []) = Marker.Insert →
    classify (lines.getD k []) = Marker.Delete →
    ∃ m ∈ List.range k, j < m ∧ (classify (lines.getD m []) = Marker.Context ∨
      classify (lines.getD m []) = Marker.Other)

instance (lines : List (List Byte)) : Decidable (OrderedGroups lines) := by
  unfold OrderedGroups
  infer_instance

/-- Full invariant of the scanning loop: the cursor invariant, plus — for
every emitted block — its shape, its run purity (under `OrderedGroups`),
the membership of its two background annotations, and the characterization
of every differ invocation and of every annotation. -/

def LoopInv (differ : Differ) (lines : List (List Byte)) (starts : List Nat)
    (i : Nat) (s : LoopState) : Prop :=
  StateInv lines i s ∧
  (∀ b ∈ s.blocks, BlockShape lines b) ∧
  (OrderedGroups lines → ∀ b ∈ s.blocks, BlockRuns lines b) ∧
  (∀ b ∈ s.blocks, delAnnOf starts b ∈ s.anns ∧ insAnnOf starts b ∈ s.anns) ∧
  (∀ c ∈ s.calls, ∃ b ∈ s.blocks,
    classify (lines.getD b.2.2 []) ≠ Marker.Other ∧ c = callOf lines starts b) ∧
  (∀ a ∈ s.anns,
    (∃ b ∈ s.blocks, a = delAnnOf starts b ∨ a = insAnnOf starts b) ∨
    (∃ b ∈ s.blocks, classify (lines.getD b.2.2 []) ≠ Marker.Other ∧
      (a ∈ (segsOf differ lines starts b).1 ∨ a ∈ (segsOf differ lines starts b).2)))

/-! ### Further helper lemmas -/

/-- A differ that contributes nothing; used to instantiate theorems at
concrete inputs. -/

def trivDiffer : Differ := fun _ _ _ _ => ([], [])

/-- The §6 contract of the external character-level differ: every produced
annotation lies inside the content string it was computed for, translated
by the base offset the caller passed. -/

def DifferInBounds (differ : Differ) : Prop :=
  ∀ lc rc bl br,
    (∀ a ∈ (differ lc rc bl br).1, bl ≤ a.start ∧ a.stop ≤ bl + lc.length) ∧
    (∀ a ∈ (differ lc rc bl br).2, br ≤ a.start ∧ a.stop ≤ br + rc.length)

/-! ### Lemmas: line splitting and line starts -/

theorem splitNL_ne_nil : ∀ s : List Byte, splitNL s ≠ []
  | [] => by simp [splitNL]
  | b :: rest => by
    by_cases hb : b = 10
    · simp [splitNL, hb]
    · cases hs : splitNL rest with
      | nil => exact absurd hs (splitNL_ne_nil rest)
      | cons l ls => simp [splitNL, hb, hs]

theorem splitNL_cons_eq (b : Byte) (rest : List Byte) :
    splitNL (b :: rest) =
      if b = 10 then [] :: splitNL rest
      else
        match splitNL rest with
        | [] => [[b]]
        | l :: ls => (b :: l) :: ls := rfl

theorem joinNL_splitNL : ∀ s : List Byte, joinNL (splitNL s) = s
  | [] => by simp [splitNL, joinNL]
  | b :: rest => by
    have ih := joinNL_splitNL rest
    rw [splitNL_cons_eq]
    by_cases hb : b = 10
    · subst hb
      cases hs : splitNL rest with
      | nil => exact absurd hs (splitNL_ne_nil rest)
      | cons l ls =>
        rw [hs] at ih
        simp only [if_pos rfl, joinNL, ih, List.nil_append]
    · cases hs : splitNL rest with
      | nil => exact absurd hs (splitNL_ne_nil rest)
      | cons l ls =>
        rw [hs] at ih
        rw [if_neg hb]
        cases ls with
        | nil =>
          simp only [joinNL] at ih ⊢
          rw [ih]
        | cons l' ls' =>
          simp only [joinNL] at ih ⊢
          rw [List.cons_append, ih]

theorem length_lineStartsFrom : ∀ (ls : List (List Byte)) (off : Nat),
    (lineStartsFrom off ls).length = ls.length
  | [], _ => rfl
  | l :: ls, off => by
    simp [lineStartsFrom, length_lineStartsFrom ls]

theorem lineStartsFrom_cons (off : Nat) (l : List Byte) (ls : List (List Byte)) :
    lineStartsFrom off (l :: ls) = off :: lineStartsFrom (off + l.length + 1) ls := rfl

theorem lineStartsFrom_getD : ∀ (ls : List (List Byte)) (off j : Nat), j < ls.length →
    (lineStartsFrom off ls).getD j 0 =
      off + (((ls.take j).map (fun l => l.length + 1)).sum)
  | [], _, j, h => by simp at h
  | l :: ls, off, 0, _ => by simp [lineStartsFrom_cons]
  | l :: ls, off, j + 1, h => by
    have ih := lineStartsFrom_getD ls (off + l.length + 1) j (by simpa using h)
    rw [lineStartsFrom_cons, List.getD_cons_succ, ih, List.take_succ_cons,
      List.map_cons, List.sum_cons]
    omega

theorem lineStartsFrom_getD_succ (ls : List (List Byte)) (off j : Nat)
    (h : j + 1 < ls.length) :
    (lineStartsFrom off ls).getD (j + 1) 0 =
      (lineStartsFrom off ls).getD j 0 + (ls.getD j []).length + 1 := by
  have hj : j < ls.length := by omega
  rw [lineStartsFrom_getD ls off (j + 1) h, lineStartsFrom_getD ls off j hj,
    List.take_succ]
  have hx : ls[j]? = some (ls.getD j []) := by
    rw [List.getElem?_eq_getElem hj]
    rw [List.getD_eq_getElem ls [] hj]
  rw [hx]
  simp only [Option.toList_some, List.map_append, List.map_cons, List.map_nil,
    List.sum_append, List.sum_cons, List.sum_nil]
  omega

theorem lineStartsFrom_mono (ls : List (List Byte)) (off j k : Nat)
    (hjk : j ≤ k) (hk : k < ls.length) :
    (lineStartsFrom off ls).getD j 0 ≤ (lineStartsFrom off ls).getD k 0 := by
  induction k with
  | zero => cases Nat.le_zero.mp hjk; exact Nat.le_refl _
  | succ k ih =>
    rcases Nat.lt_or_ge j (k + 1) with h | h
    · have h1 := ih (by omega) (by omega)
      have hs := lineStartsFrom_getD_succ ls off k hk
      omega
    · have : j = k + 1 := by omega
      subst this; exact Nat.le_refl _

/-- The last line's start plus its length reaches exactly the end of the
joined text. -/

theorem lineStartsFrom_last : ∀ (ls : List (List Byte)) (off : Nat), ls ≠ [] →
    (lineStartsFrom off ls).getD (ls.length - 1) 0 +
      (ls.getD (ls.length - 1) []).length = off + (joinNL ls).length
  | [], _, h => absurd rfl h
  | [l], off, _ => by simp [lineStartsFrom_cons, lineStartsFrom, joinNL]
  | l :: l' :: ls, off, _ => by
    have ih := lineStartsFrom_last (l' :: ls) (off + l.length + 1) (by simp)
    have e2 : (l :: l' :: ls).length - 1 = ((l' :: ls).length - 1) + 1 := by simp
    have e3 : joinNL (l :: l' :: ls) = l ++ 10 :: joinNL (l' :: ls) := rfl
    rw [lineStartsFrom_cons, e2, List.getD_cons_succ, List.getD_cons_succ, e3,
      List.length_append, List.length_cons]
    simp only [List.length_cons, Nat.add_sub_cancel] at ih ⊢
    omega

theorem cover_exists : ∀ (ls : List (List Byte)) (off k : Nat),
    k < (joinNL ls).length →
    ∃ j, j < ls.length ∧ (lineStartsFrom off ls).getD j 0 ≤ off + k ∧
      off + k < (lineStartsFrom off ls).getD j 0 + (ls.getD j []).length + 1
  | [], off, k, h => by simp [joinNL] at h
  | [l], off, k, h => by
    refine ⟨0, by simp, by simp [lineStartsFrom_cons], ?_⟩
    simp only [joinNL] at h
    simp only [lineStartsFrom_cons, List.getD_cons_zero]
    omega
  | l :: l' :: ls, off, k, h => by
    by_cases hk : k < l.length + 1
    · refine ⟨0, by simp, by simp [lineStartsFrom_cons], ?_⟩
      simp only [lineStartsFrom_cons, List.getD_cons_zero]
      omega
    · have hlen : (joinNL (l :: l' :: ls)).length =
          l.length + 1 + (joinNL (l' :: ls)).length := by
        show (l ++ 10 :: joinNL (l' :: ls)).length = _
        rw [List.length_append, List.length_cons]
        omega
      have hk' : k - (l.length + 1) < (joinNL (l' :: ls)).length := by omega
      obtain ⟨j, hj, h1, h2⟩ :=
        cover_exists (l' :: ls) (off + l.length + 1) (k - (l.length + 1)) hk'
      refine ⟨j + 1, by simpa using Nat.succ_lt_succ hj, ?_, ?_⟩
      · rw [lineStartsFrom_cons, List.getD_cons_succ]
        omega
      · rw [lineStartsFrom_cons, List.getD_cons_succ, List.getD_cons_succ]
        omega

/-! ### Claim C7: the line byte ranges partition the text -/

/-- C7: the line byte ranges computed by the line scanner partition the
text exactly: line 0 starts at offset 0, the start of line `i+1` equals the
start of line `i` plus the length of line `i` plus one (the newline
separator), and every byte offset of the text lies in exactly one line
range. -/

theorem c7_line_partition (src : List Byte) :
    (lineStarts (splitNL src)).length = (splitNL src).length ∧
    (lineStarts (splitNL src)).getD 0 0 = 0 ∧
    (∀ j, j + 1 < (splitNL src).length →
      (lineStarts (splitNL src)).getD (j + 1) 0 =
        (lineStarts (splitNL src)).getD j 0 + ((splitNL src).getD j []).length + 1) ∧
    (∀ k, k < src.length → ∃! j, j < (splitNL src).length ∧
      (lineStarts (splitNL src)).getD j 0 ≤ k ∧
      k < (lineStarts (splitNL src)).getD j 0 + ((splitNL src).getD j []).length + 1) := by
  unfold lineStarts
  refine ⟨length_lineStartsFrom _ _, ?_, ?_, ?_⟩
  · cases hs : splitNL src with
    | nil => exact absurd hs (splitNL_ne_nil src)
    | cons l ls => rw [lineStartsFrom_cons, List.getD_cons_zero]
  · intro j h
    exact lineStartsFrom_getD_succ _ 0 j h
  · intro k hk
    have hk' : k < (joinNL (splitNL src)).length := by
      rw [joinNL_splitNL]; exact hk
    obtain ⟨j, hj, h1, h2⟩ := cover_exists (splitNL src) 0 k hk'
    rw [Nat.zero_add] at h1 h2
    refine ⟨j, ⟨hj, h1, h2⟩, ?_⟩
    rintro j' ⟨hj', h1', h2'⟩
    by_contra hne
    rcases Nat.lt_or_ge j' j with h | h
    · have hsucc := lineStartsFrom_getD_succ (splitNL src) 0 j' (by omega)
      have hm := lineStartsFrom_mono (splitNL src) 0 (j' + 1) j (by omega) hj
      omega
    · have hlt : j < j' := by omega
      have hsucc := lineStartsFrom_getD_succ (splitNL src) 0 j (by omega)
      have hm := lineStartsFrom_mono (splitNL src) 0 (j + 1) j' (by omega) hj'
      omega

/-- Witness for C7 at the concrete text `"-a\nb"`. -/

theorem c7_line_partition_witness :
    ((lineStarts (splitNL [45, 97, 10, 98])).getD 1 0 =
      (lineStarts (splitNL [45, 97, 10, 98])).getD 0 0 +
        ((splitNL [45, 97, 10, 98]).getD 0 []).length + 1) ∧
    (∃! j, j < (splitNL [45, 97, 10, 98]).length ∧
      (lineStarts (splitNL [45, 97, 10, 98])).getD j 0 ≤ 2 ∧
      2 < (lineStarts (splitNL [45, 97, 10, 98])).getD j 0 +
        ((splitNL [45, 97, 10, 98]).getD j []).length + 1) :=
  ⟨(c7_line_partition [45, 97, 10, 98]).2.2.1 0 (by decide),
   (c7_line_partition [45, 97, 10, 98]).2.2.2 2 (by decide)⟩

/-! ### Loop machinery: reduction equations and induction over the scan -/

theorem foldRange_inv {σ : Type} (n : Nat) (step : Nat → σ → σ) (P : Nat → σ → Prop)
    (init : σ) (h0 : P 0 init)
    (hstep : ∀ i s, i < n → P i s → P (i + 1) (step i s)) :
    ∀ m, m ≤ n → P m ((List.range m).foldl (fun s i => step i s) init) := by
  intro m
  induction m with
  | zero => intro _; simpa using h0
  | succ m ih =>
    intro h
    rw [List.range_succ, List.foldl_append]
    exact hstep m _ (by omega) (ih (by omega))

section StepEquations

variable (differ : Differ) (lines : List (List Byte)) (starts : List Nat)
variable (i : Nat) (s : LoopState)

theorem stepLine_ins_none (hcl : classify (lines.getD i []) = Marker.Insert)
    (hv : s.lastIns = none) :
    stepLine differ lines starts i s = { s with lastIns := some i } := by
  unfold stepLine; rw [hcl, hv]

theorem stepLine_ins_some (v : Nat) (hcl : classify (lines.getD i []) = Marker.Insert)
    (hv : s.lastIns = some v) :
    stepLine differ lines starts i s = s := by
  unfold stepLine; rw [hcl, hv]

theorem stepLine_del_none (hcl : classify (lines.getD i []) = Marker.Delete)
    (hd : s.lastDel = none) :
    stepLine differ lines starts i s = { s with lastDel := some i } := by
  unfold stepLine; rw [hcl, hd]

theorem stepLine_del_some (d : Nat) (hcl : classify (lines.getD i []) = Marker.Delete)
    (hd : s.lastDel = some d) :
    stepLine differ lines starts i s = s := by
  unfold stepLine; rw [hcl, hd]

theorem stepLine_close (m : Marker) (hcl : classify (lines.getD i []) = m)
    (hm1 : m ≠ Marker.Insert) (hm2 : m ≠ Marker.Delete) :
    stepLine differ lines starts i s =
      { (match s.lastDel, s.lastIns with
         | none, none => s
         | none, some v => emitBlock differ lines starts i m v v s
         | some d, none => emitBlock differ lines starts i m d i s
         | some d, some v => emitBlock differ lines starts i m d v s) with
        lastDel := none, lastIns := none } := by
  unfold stepLine; rw [hcl]
  cases m
  · rfl
  · exact absurd rfl hm2
  · exact absurd rfl hm1
  · rfl

end StepEquations

theorem NoCloser.extend {lines : List (List Byte)} {lo i : Nat}
    (h : NoCloser lines lo i)
    (hi : classify (lines.getD i []) = Marker.Delete ∨
      classify (lines.getD i []) = Marker.Insert) :
    NoCloser lines lo (i + 1) := by
  intro j hj1 hj2
  rcases Nat.lt_or_ge j i with hlt | hge
  · exact h j hj1 hlt
  · have : j = i := by omega
    subst this; exact hi

theorem stateInv_init (lines : List (List Byte)) : StateInv lines 0 initLoopState := by
  constructor <;> intros <;> simp_all [initLoopState]

theorem stateInv_step (differ : Differ) (lines : List (List Byte)) (starts : List Nat)
    (i : Nat) (s : LoopState) (h : StateInv lines i s) :
    StateInv lines (i + 1) (stepLine differ lines starts i s) := by
  cases hcl : classify (lines.getD i []) with
  | Insert =>
    cases hv : s.lastIns with
    | none =>
      rw [stepLine_ins_none differ lines starts i s hcl hv]
      constructor
      · intro d hd
        obtain ⟨h1, h2, h3⟩ := h.del d hd
        exact ⟨by omega, h2, h3.extend (Or.inr hcl)⟩
      · intro v hv'
        have hvi : v = i := by
          have : some i = some v := hv'
          exact (Option.some.injEq _ _ ▸ this).symm
        subst hvi
        refine ⟨by omega, hcl, ?_⟩
        intro j hj1 hj2
        have : j = v := by omega
        subst this; exact Or.inr hcl
      · intro d hd hnone
        exact absurd hnone (by simp)
      · intro v hv' hdnone
        have hvi : v = i := by
          have : some i = some v := hv'
          exact (Option.some.injEq _ _ ▸ this).symm
        subst hvi
        intro j hj1 hj2
        have : j = v := by omega
        subst this; exact hcl
      · intro d v hd hv'
        have hvi : v = i := by
          have : some i = some v := hv'
          exact (Option.some.injEq _ _ ▸ this).symm
        subst hvi
        have hdlt : d < v := (h.del d hd).1
        refine ⟨by omega, ?_, ?_⟩
        · intro _ j hj1 hj2
          exact h.pureDel d hd hv j hj1 (by omega)
        · intro hvd
          exact absurd hvd (by omega)
    | some v0 =>
      rw [stepLine_ins_some differ lines starts i s v0 hcl hv]
      constructor
      · intro d hd
        obtain ⟨h1, h2, h3⟩ := h.del d hd
        exact ⟨by omega, h2, h3.extend (Or.inr hcl)⟩
      · intro v hv'
        obtain ⟨h1, h2, h3⟩ := h.ins v hv'
        exact ⟨by omega, h2, h3.extend (Or.inr hcl)⟩
      · intro d hd hnone
        rw [hv] at hnone
        exact absurd hnone (by simp)
      · intro v hv' hdnone
        intro j hj1 hj2
        rcases Nat.lt_or_ge j i with hlt | hge
        · exact h.pureIns v hv' hdnone j hj1 hlt
        · have : j = i := by omega
          subst this; exact hcl
      · intro d v hd hv'
        exact h.both d v hd hv'
  | Delete =>
    cases hd : s.lastDel with
    | none =>
      rw [stepLine_del_none differ lines starts i s hcl hd]
      constructor
      · intro d hd'
        have hdi : d = i := by
          have : some i = some d := hd'
          exact (Option.some.injEq _ _ ▸ this).symm
        subst hdi
        refine ⟨by omega, hcl, ?_⟩
        intro j hj1 hj2
        have : j = d := by omega
        subst this; exact Or.inl hcl
      · intro v hv'
        obtain ⟨h1, h2, h3⟩ := h.ins v hv'
        exact ⟨by omega, h2, h3.extend (Or.inl hcl)⟩
      · intro d hd' hnone
        have hdi : d = i := by
          have : some i = some d := hd'
          exact (Option.some.injEq _ _ ▸ this).symm
        subst hdi
        intro j hj1 hj2
        have : j = d := by omega
        subst this; exact hcl
      · intro v hv' hdnone
        exact absurd hdnone (by simp)
      · intro d v hd' hv'
        have hdi : d = i := by
          have : some i = some d := hd'
          exact (Option.some.injEq _ _ ▸ this).symm
        subst hdi
        have hvlt : v < d := (h.ins v hv').1
        refine ⟨by omega, ?_, ?_⟩
        · intro hdv
          exact absurd hdv (by omega)
        · intro _ j hj1 hj2
          exact h.pureIns v hv' hd j hj1 (by omega)
    | some d0 =>
      rw [stepLine_del_some differ lines starts i s d0 hcl hd]
      constructor
      · intro d hd'
        obtain ⟨h1, h2, h3⟩ := h.del d hd'
        exact ⟨by omega, h2, h3.extend (Or.inl hcl)⟩
      · intro v hv'
        obtain ⟨h1, h2, h3⟩ := h.ins v hv'
        exact ⟨by omega, h2, h3.extend (Or.inl hcl)⟩
      · intro d hd' hnone
        intro j hj1 hj2
        rcases Nat.lt_or_ge j i with hlt | hge
        · exact h.pureDel d hd' hnone j hj1 hlt
        · have : j = i := by omega
          subst this; exact hcl
      · intro v hv' hdnone
        rw [hd] at hdnone
        exact absurd hdnone (by simp)
      · intro d v hd' hv'
        exact h.both d v hd' hv'
  | Context =>
    rw [stepLine_close differ lines starts i s Marker.Context hcl (by simp) (by simp)]
    constructor <;> intros <;> simp_all
  | Other =>
    rw [stepLine_close differ lines starts i s Marker.Other hcl (by simp) (by simp)]
    constructor <;> intros <;> simp_all

theorem emitBlock_eq (differ : Differ) (lines : List (List Byte)) (starts : List Nat)
    (i : Nat) (m : Marker) (d v : Nat) (s : LoopState) :
    emitBlock differ lines starts i m d v s =
      if m = Marker.Other then
        { s with
          anns := s.anns ++ [delAnnOf starts (d, v, i), insAnnOf starts (d, v, i)],
          blocks := s.blocks ++ [(d, v, i)] }
      else
        { s with
          anns := s.anns ++ [delAnnOf starts (d, v, i), insAnnOf starts (d, v, i)]
            ++ (segsOf differ lines starts (d, v, i)).1
            ++ (segsOf differ lines starts (d, v, i)).2,
          blocks := s.blocks ++ [(d, v, i)],
          calls := s.calls ++ [callOf lines starts (d, v, i)] } := by
  by_cases hm : m = Marker.Other <;>
    simp [emitBlock, delAnnOf, insAnnOf, callOf, segsOf, hm]

theorem newBlock_del {lines : List (List Byte)} {i : Nat} {s : LoopState} {d : Nat}
    (hi : i < lines.length) (hst : StateInv lines i s)
    (hd : s.lastDel = some d) (hv : s.lastIns = none)
    (hcl2 : classify (lines.getD i []) = Marker.Context ∨
      classify (lines.getD i []) = Marker.Other) :
    BlockShape lines (d, i, i) ∧ BlockRuns lines (d, i, i) := by
  obtain ⟨hdlt, hdcls, hdnc⟩ := hst.del d hd
  unfold BlockShape BlockRuns
  dsimp only
  refine ⟨⟨hdlt, Nat.le_refl _, hi, hcl2, ?_⟩, Nat.le_of_lt hdlt, ?_, ?_⟩
  · intro j hj1 hj2
    exact hdnc j (by omega) hj2
  · intro j hj1 hj2
    exact hst.pureDel d hd hv j hj1 hj2
  · intro j hj1 hj2
    omega

theorem newBlock_ins {lines : List (List Byte)} {i : Nat} {s : LoopState} {v : Nat}
    (hi : i < lines.length) (hst : StateInv lines i s)
    (hd : s.lastDel = none) (hv : s.lastIns = some v)
    (hcl2 : classify (lines.getD i []) = Marker.Context ∨
      classify (lines.getD i []) = Marker.Other) :
    BlockShape lines (v, v, i) ∧ BlockRuns lines (v, v, i) := by
  obtain ⟨hvlt, hvcls, hvnc⟩ := hst.ins v hv
  unfold BlockShape BlockRuns
  dsimp only
  refine ⟨⟨hvlt, Nat.le_of_lt hvlt, hi, hcl2, ?_⟩, Nat.le_refl _, ?_, ?_⟩
  · intro j hj1 hj2
    exact hvnc j (by omega) hj2
  · intro j hj1 hj2
    omega
  · intro j hj1 hj2
    exact hst.pureIns v hv hd j hj1 hj2

theorem newBlock_both {lines : List (List Byte)} {i : Nat} {s : LoopState} {d v : Nat}
    (hi : i < lines.length) (hst : StateInv lines i s)
    (hd : s.lastDel = some d) (hv : s.lastIns = some v)
    (hcl2 : classify (lines.getD i []) = Marker.Context ∨
      classify (lines.getD i []) = Marker.Other) :
    BlockShape lines (d, v, i) ∧
      (OrderedGroups lines → BlockRuns lines (d, v, i)) := by
  obtain ⟨hdlt, hdcls, hdnc⟩ := hst.del d hd
  obtain ⟨hvlt, hvcls, hvnc⟩ := hst.ins v hv
  obtain ⟨hne, hDelRun, hInsRun⟩ := hst.both d v hd hv
  unfold BlockShape BlockRuns
  dsimp only
  constructor
  · refine ⟨hdlt, by omega, hi, hcl2, ?_⟩
    intro j hj1 hj2
    rcases Nat.le_total d v with hle | hle
    · exact hdnc j (by omega) hj2
    · exact hvnc j (by omega) hj2
  · intro hog
    have hdv : d < v := by
      by_contra hge
      have hvd : v < d := by omega
      obtain ⟨m, hm0, hm2, hm3⟩ := hog d (List.mem_range.mpr (by omega))
        v (List.mem_range.mpr hvd) hvcls hdcls
      have hm1 : m < d := List.mem_range.mp hm0
      have hm4 := hvnc m (by omega) (by omega)
      rcases hm3 with h3 | h3 <;> rcases hm4 with h4 | h4 <;> rw [h3] at h4 <;> exact Marker.noConfusion h4
    refine ⟨by omega, fun j hj1 hj2 => hDelRun hdv j hj1 hj2, ?_⟩
    intro j hj1 hj2
    rcases Nat.eq_or_lt_of_le hj1 with heq | hlt
    · rw [← heq]; exact hvcls
    · rcases hdnc j (by omega) hj2 with hjd | hji
      · exfalso
        obtain ⟨m, hm0, hm2, hm3⟩ := hog j (List.mem_range.mpr (by omega))
          v (List.mem_range.mpr hlt) hvcls hjd
        have hm1 : m < j := List.mem_range.mp hm0
        have hm4 := hdnc m (by omega) (by omega)
        rcases hm3 with h3 | h3 <;> rcases hm4 with h4 | h4 <;> rw [h3] at h4 <;> exact Marker.noConfusion h4
      · exact hji

theorem loopInv_emit (differ : Differ) (lines : List (List Byte)) (starts : List Nat)
    (i : Nat) (m : Marker) (d' v' : Nat) (s : LoopState)
    (hcl : classify (lines.getD i []) = m)
    (hshapeNew : BlockShape lines (d', v', i))
    (hrunsNew : OrderedGroups lines → BlockRuns lines (d', v', i))
    (hshape : ∀ b ∈ s.blocks, BlockShape lines b)
    (hruns : OrderedGroups lines → ∀ b ∈ s.blocks, BlockRuns lines b)
    (hmem : ∀ b ∈ s.blocks, delAnnOf starts b ∈ s.anns ∧ insAnnOf starts b ∈ s.anns)
    (hcalls : ∀ c ∈ s.calls, ∃ b ∈ s.blocks,
      classify (lines.getD b.2.2 []) ≠ Marker.Other ∧ c = callOf lines starts b)
    (hanns : ∀ a ∈ s.anns,
      (∃ b ∈ s.blocks, a = delAnnOf starts b ∨ a = insAnnOf starts b) ∨
      (∃ b ∈ s.blocks, classify (lines.getD b.2.2 []) ≠ Marker.Other ∧
        (a ∈ (segsOf differ lines starts b).1 ∨ a ∈ (segsOf differ lines starts b).2))) :
    (∀ b ∈ (emitBlock differ lines starts i m d' v' s).blocks, BlockShape lines b) ∧
    (OrderedGroups lines →
      ∀ b ∈ (emitBlock differ lines starts i m d' v' s).blocks, BlockRuns lines b) ∧
    (∀ b ∈ (emitBlock differ lines starts i m d' v' s).blocks,
      delAnnOf starts b ∈ (emitBlock differ lines starts i m d' v' s).anns ∧
      insAnnOf starts b ∈ (emitBlock differ lines starts i m d' v' s).anns) ∧
    (∀ c ∈ (emitBlock differ lines starts i m d' v' s).calls,
      ∃ b ∈ (emitBlock differ lines starts i m d' v' s).blocks,
        classify (lines.getD b.2.2 []) ≠ Marker.Other ∧ c = callOf lines starts b) ∧
    (∀ a ∈ (emitBlock differ lines starts i m d' v' s).anns,
      (∃ b ∈ (emitBlock differ lines starts i m d' v' s).blocks,
        a = delAnnOf starts b ∨ a = insAnnOf starts b) ∨
      (∃ b ∈ (emitBlock differ lines starts i m d' v' s).blocks,
        classify (lines.getD b.2.2 []) ≠ Marker.Other ∧
        (a ∈ (segsOf differ lines starts b).1 ∨ a ∈ (segsOf differ lines starts b).2))) := by
  rw [emitBlock_eq]
  by_cases hmO : m = Marker.Other
  · rw [if_pos hmO]
    dsimp only
    refine ⟨?_, ?_, ?_, ?_, ?_⟩
    · intro b hb
      rcases List.mem_append.mp hb with hb | hb
      · exact hshape b hb
      · rw [List.mem_singleton.mp hb]; exact hshapeNew
    · intro hog b hb
      rcases List.mem_append.mp hb with hb | hb
      · exact hruns hog b hb
      · rw [List.mem_singleton.mp hb]; exact hrunsNew hog
    · intro b hb
      rcases List.mem_append.mp hb with hb | hb
      · exact ⟨List.mem_append_left _ (hmem b hb).1,
          List.mem_append_left _ (hmem b hb).2⟩
      · rw [List.mem_singleton.mp hb]
        exact ⟨List.mem_append_right _ (by simp),
          List.mem_append_right _ (by simp)⟩
    · intro c hc
      obtain ⟨b, hb, hne, hceq⟩ := hcalls c hc
      exact ⟨b, List.mem_append_left _ hb, hne, hceq⟩
    · intro a ha
      rcases List.mem_append.mp ha with ha | ha
      · rcases hanns a ha with ⟨b, hb, hor⟩ | ⟨b, hb, hne, hor⟩
        · exact Or.inl ⟨b, List.mem_append_left _ hb, hor⟩
        · exact Or.inr ⟨b, List.mem_append_left _ hb, hne, hor⟩
      · rcases List.mem_cons.mp ha with ha | ha
        · exact Or.inl ⟨(d', v', i), List.mem_append_right _ (by simp), Or.inl ha⟩
        · rw [List.mem_singleton.mp ha]
          exact Or.inl ⟨(d', v', i), List.mem_append_right _ (by simp), Or.inr rfl⟩
  · rw [if_neg hmO]
    dsimp only
    have hne' : classify (lines.getD i []) ≠ Marker.Other := by
      rw [hcl]; exact hmO
    refine ⟨?_, ?_, ?_, ?_, ?_⟩
    · intro b hb
      rcases List.mem_append.mp hb with hb | hb
      · exact hshape b hb
      · rw [List.mem_singleton.mp hb]; exact hshapeNew
    · intro hog b hb
      rcases List.mem_append.mp hb with hb | hb
      · exact hruns hog b hb
      · rw [List.mem_singleton.mp hb]; exact hrunsNew hog
    · intro b hb
      rcases List.mem_append.mp hb with hb | hb
      · refine ⟨?_, ?_⟩
        · exact List.mem_append_left _ (List.mem_append_left _
            (List.mem_append_left _ (hmem b hb).1))
        · exact List.mem_append_left _ (List.mem_append_left _
            (List.mem_append_left _ (hmem b hb).2))
      · rw [List.mem_singleton.mp hb]
        refine ⟨?_, ?_⟩
        · exact List.mem_append_left _ (List.mem_append_left _
            (List.mem_append_right _ (by simp)))
        · exact List.mem_append_left _ (List.mem_append_left _
            (List.mem_append_right _ (by simp)))
    · intro c hc
      rcases List.mem_append.mp hc with hc | hc
      · obtain ⟨b, hb, hne, hceq⟩ := hcalls c hc
        exact ⟨b, List.mem_append_left _ hb, hne, hceq⟩
      · rw [List.mem_singleton.mp hc]
        exact ⟨(d', v', i), List.mem_append_right _ (by simp), hne', rfl⟩
    · intro a ha
      rcases List.mem_append.mp ha with ha | ha
      · rcases List.mem_append.mp ha with ha | ha
        · rcases List.mem_append.mp ha with ha | ha
          · rcases hanns a ha with ⟨b, hb, hor⟩ | ⟨b, hb, hne, hor⟩
            · exact Or.inl ⟨b, List.mem_append_left _ hb, hor⟩
            · exact Or.inr ⟨b, List.mem_append_left _ hb, hne, hor⟩
          · rcases List.mem_cons.mp ha with ha | ha
            · exact Or.inl ⟨(d', v', i), List.mem_append_right _ (by simp), Or.inl ha⟩
            · rw [List.mem_singleton.mp ha]
              exact Or.inl ⟨(d', v', i), List.mem_append_right _ (by simp), Or.inr rfl⟩
        · exact Or.inr ⟨(d', v', i), List.mem_append_right _ (by simp), hne', Or.inl ha⟩
      · exact Or.inr ⟨(d', v', i), List.mem_append_right _ (by simp), hne', Or.inr ha⟩

theorem loopInv_init (differ : Differ) (lines : List (List Byte)) (starts : List Nat) :
    LoopInv differ lines starts 0 initLoopState := by
  refine ⟨stateInv_init lines, ?_, ?_, ?_, ?_, ?_⟩
  · intro b hb; simp [initLoopState] at hb
  · intro _ b hb; simp [initLoopState] at hb
  · intro b hb; simp [initLoopState] at hb
  · intro c hc; simp [initLoopState] at hc
  · intro a ha; simp [initLoopState] at ha

theorem loopInv_step (differ : Differ) (lines : List (List Byte)) (starts : List Nat)
    (i : Nat) (s : LoopState) (hi : i < lines.length)
    (h : LoopInv differ lines starts i s) :
    LoopInv differ lines starts (i + 1) (stepLine differ lines starts i s) := by
  obtain ⟨hst, hshape, hruns, hmem, hcalls, hanns⟩ := h
  have hst' := stateInv_step differ lines starts i s hst
  cases hcl : classify (lines.getD i []) with
  | Insert =>
    cases hv : s.lastIns with
    | none =>
      rw [stepLine_ins_none differ lines starts i s hcl hv] at hst' ⊢
      exact ⟨hst', hshape, hruns, hmem, hcalls, hanns⟩
    | some v0 =>
      rw [stepLine_ins_some differ lines starts i s v0 hcl hv] at hst' ⊢
      exact ⟨hst', hshape, hruns, hmem, hcalls, hanns⟩
  | Delete =>
    cases hd : s.lastDel with
    | none =>
      rw [stepLine_del_none differ lines starts i s hcl hd] at hst' ⊢
      exact ⟨hst', hshape, hruns, hmem, hcalls, hanns⟩
    | some d0 =>
      rw [stepLine_del_some differ lines starts i s d0 hcl hd] at hst' ⊢
      exact ⟨hst', hshape, hruns, hmem, hcalls, hanns⟩
  | Context =>
    have hcl2 : classify (lines.getD i []) = Marker.Context ∨
        classify (lines.getD i []) = Marker.Other := Or.inl hcl
    cases hd : s.lastDel with
    | none =>
      cases hv : s.lastIns with
      | none =>
        have heq := stepLine_close differ lines starts i s Marker.Context hcl
          (by simp) (by simp)
        rw [hd, hv] at heq
        rw [heq] at hst' ⊢
        exact ⟨hst', hshape, hruns, hmem, hcalls, hanns⟩
      | some v =>
        have heq := stepLine_close differ lines starts i s Marker.Context hcl
          (by simp) (by simp)
        rw [hd, hv] at heq
        rw [heq] at hst' ⊢
        obtain ⟨hvshape, hvruns⟩ := newBlock_ins hi hst hd hv hcl2
        obtain ⟨e1, e2, e3, e4, e5⟩ := loopInv_emit differ lines starts i
          Marker.Context v v s hcl hvshape (fun _ => hvruns)
          hshape hruns hmem hcalls hanns
        exact ⟨hst', e1, e2, e3, e4, e5⟩
    | some d =>
      cases hv : s.lastIns with
      | none =>
        have heq := stepLine_close differ lines starts i s Marker.Context hcl
          (by simp) (by simp)
        rw [hd, hv] at heq
        rw [heq] at hst' ⊢
        obtain ⟨hdshape, hdruns⟩ := newBlock_del hi hst hd hv hcl2
        obtain ⟨e1, e2, e3, e4, e5⟩ := loopInv_emit differ lines starts i
          Marker.Context d i s hcl hdshape (fun _ => hdruns)
          hshape hruns hmem hcalls hanns
        exact ⟨hst', e1, e2, e3, e4, e5⟩
      | some v =>
        have heq := stepLine_close differ lines starts i s Marker.Context hcl
          (by simp) (by simp)
        rw [hd, hv] at heq
        rw [heq] at hst' ⊢
        obtain ⟨hbshape, hbruns⟩ := newBlock_both hi hst hd hv hcl2
        obtain ⟨e1, e2, e3, e4, e5⟩ := loopInv_emit differ lines starts i
          Marker.Context d v s hcl hbshape hbruns
          hshape hruns hmem hcalls hanns
        exact ⟨hst', e1, e2, e3, e4, e5⟩
  | Other =>
    have hcl2 : classify (lines.getD i []) = Marker.Context ∨
        classify (lines.getD i []) = Marker.Other := Or.inr hcl
    cases hd : s.lastDel with
    | none =>
      cases hv : s.lastIns with
      | none =>
        have heq := stepLine_close differ lines starts i s Marker.Other hcl
          (by simp) (by simp)
        rw [hd, hv] at heq
        rw [heq] at hst' ⊢
        exact ⟨hst', hshape, hruns, hmem, hcalls, hanns⟩
      | some v =>
        have heq := stepLine_close differ lines starts i s Marker.Other hcl
          (by simp) (by simp)
        rw [hd, hv] at heq
        rw [heq] at hst' ⊢
        obtain ⟨hvshape, hvruns⟩ := newBlock_ins hi hst hd hv hcl2
        obtain ⟨e1, e2, e3, e4, e5⟩ := loopInv_emit differ lines starts i
          Marker.Other v v s hcl hvshape (fun _ => hvruns)
          hshape hruns hmem hcalls hanns
        exact ⟨hst', e1, e2, e3, e4, e5⟩
    | some d =>
      cases hv : s.lastIns with
      | none =>
        have heq := stepLine_close differ lines starts i s Marker.Other hcl
          (by simp) (by simp)
        rw [hd, hv] at heq
        rw [heq] at hst' ⊢
        obtain ⟨hdshape, hdruns⟩ := newBlock_del hi hst hd hv hcl2
        obtain ⟨e1, e2, e3, e4, e5⟩ := loopInv_emit differ lines starts i
          Marker.Other d i s hcl hdshape (fun _ => hdruns)
          hshape hruns hmem hcalls hanns
        exact ⟨hst', e1, e2, e3, e4, e5⟩
      | some v =>
        have heq := stepLine_close differ lines starts i s Marker.Other hcl
          (by simp) (by simp)
        rw [hd, hv] at heq
        rw [heq] at hst' ⊢
        obtain ⟨hbshape, hbruns⟩ := newBlock_both hi hst hd hv hcl2
        obtain ⟨e1, e2, e3, e4, e5⟩ := loopInv_emit differ lines starts i
          Marker.Other d v s hcl hbshape hbruns
          hshape hruns hmem hcalls hanns
        exact ⟨hst', e1, e2, e3, e4, e5⟩

/-- The loop invariant holds of the final state of the scan. -/

theorem loopInv_run (differ : Differ) (lines : List (List Byte)) (starts : List Nat) :
    LoopInv differ lines starts lines.length (runLines differ lines starts) := by
  exact foldRange_inv lines.length (fun i s => stepLine differ lines starts i s)
    (LoopInv differ lines starts) initLoopState
    (loopInv_init differ lines starts)
    (fun i s hi h => loopInv_step differ lines starts i s hi h)
    lines.length (Nat.le_refl _)

theorem emitBlock_blocks (differ : Differ) (lines : List (List Byte)) (starts : List Nat)
    (i : Nat) (m : Marker) (d v : Nat) (s : LoopState) :
    (emitBlock differ lines starts i m d v s).blocks = s.blocks ++ [(d, v, i)] := by
  rw [emitBlock_eq]
  by_cases hm : m = Marker.Other <;> simp [hm]

theorem splitNL_append_newline : ∀ t : List Byte, splitNL (t ++ [10]) = splitNL t ++ [[]]
  | [] => rfl
  | b :: t => by
    have ih := splitNL_append_newline t
    by_cases hb : b = 10
    · subst hb
      rw [List.cons_append, splitNL_cons_eq, if_pos rfl, ih, splitNL_cons_eq, if_pos rfl,
        List.cons_append]
    · rw [List.cons_append, splitNL_cons_eq, if_neg hb, ih, splitNL_cons_eq, if_neg hb]
      cases hs : splitNL t with
      | nil => exact absurd hs (splitNL_ne_nil t)
      | cons l ls => simp

theorem getD_concat_last {α : Type} (l : List α) (x d : α) :
    (l ++ [x]).getD ((l ++ [x]).length - 1) d = x := by
  induction l with
  | nil => rfl
  | cons a l ih =>
    have hlen : ((a :: l) ++ [x]).length - 1 = ((l ++ [x]).length - 1) + 1 := by
      simp
    rw [hlen, List.cons_append, List.getD_cons_succ, ih]

theorem runLines_last_cursor (differ : Differ) (lines : List (List Byte))
    (starts : List Nat) (hne : lines ≠ [])
    (hlast : lines.getD (lines.length - 1) [] = []) :
    (runLines differ lines starts).lastDel = none ∧
      (runLines differ lines starts).lastIns = none := by
  unfold runLines
  have hn : List.range lines.length =
      List.range (lines.length - 1) ++ [lines.length - 1] := by
    rw [← List.range_succ]
    congr 1
    cases lines with
    | nil => exact absurd rfl hne
    | cons l ls => simp
  rw [hn, List.foldl_append]
  simp only [List.foldl_cons, List.foldl_nil]
  have hcl : classify (lines.getD (lines.length - 1) []) = Marker.Context := by
    rw [hlast]; decide
  rw [stepLine_close differ lines starts (lines.length - 1) _ Marker.Context hcl
    (by simp) (by simp)]
  exact ⟨rfl, rfl⟩

theorem lineStarts_mono (lines : List (List Byte)) (j k : Nat)
    (hjk : j ≤ k) (hk : k < lines.length) :
    (lineStarts lines).getD j 0 ≤ (lineStarts lines).getD k 0 :=
  lineStartsFrom_mono lines 0 j k hjk hk

theorem lineStarts_succ (lines : List (List Byte)) (j : Nat) (h : j + 1 < lines.length) :
    (lineStarts lines).getD (j + 1) 0 =
      (lineStarts lines).getD j 0 + (lines.getD j []).length + 1 :=
  lineStartsFrom_getD_succ lines 0 j h

theorem contentOfLines_nil (lines : List (List Byte)) (lo hi : Nat) (h : hi ≤ lo) :
    contentOfLines lines lo hi = [] := by
  unfold contentOfLines
  rw [Nat.sub_eq_zero_of_le h]
  rfl

theorem contentOfLines_cons (lines : List (List Byte)) (lo hi : Nat) (h : lo < hi) :
    contentOfLines lines lo hi =
      ((0 :: (lines.getD lo []).drop 1) ++ [10]) ++ contentOfLines lines (lo + 1) hi := by
  unfold contentOfLines
  have h1 : hi - lo = (hi - (lo + 1)) + 1 := by omega
  rw [h1, List.range'_succ, List.map_cons, List.flatten_cons]

/-- A line that keeps a block open (`Delete` or `Insert`) is nonempty. -/

theorem classify_run_ne_nil (l : List Byte)
    (h : classify l = Marker.Delete ∨ classify l = Marker.Insert) : l ≠ [] := by
  intro hl
  subst hl
  rcases h with h | h <;> exact absurd h (by decide)

theorem contentOfLines_length_aux (lines : List (List Byte)) :
    ∀ (n lo hi : Nat), hi - lo = n → lo ≤ hi → hi < lines.length →
    (∀ j, lo ≤ j → j < hi → lines.getD j [] ≠ []) →
    (lineStarts lines).getD lo 0 + (contentOfLines lines lo hi).length =
      (lineStarts lines).getD hi 0 := by
  intro n
  induction n with
  | zero =>
    intro lo hi h0 hlo _ _
    have hEq : hi = lo := by omega
    rw [hEq, contentOfLines_nil lines lo lo (Nat.le_refl _)]
    rfl
  | succ n ih =>
    intro lo hi h0 hlo hhi hne
    have hlt : lo < hi := by omega
    rw [contentOfLines_cons lines lo hi hlt, List.length_append]
    have hrec := ih (lo + 1) hi (by omega) (by omega) hhi
      (fun j hj1 hj2 => hne j (by omega) hj2)
    have hsucc := lineStarts_succ lines lo (by omega)
    have hne' := hne lo (Nat.le_refl _) hlt
    have hlen0 : (lines.getD lo []).length ≠ 0 := by
      intro h0'
      exact hne' (List.length_eq_zero.mp h0')
    have hlen : ((0 :: (lines.getD lo []).drop 1) ++ [10]).length =
        (lines.getD lo []).length + 1 := by
      rw [List.length_append, List.length_cons, List.length_drop]
      simp only [List.length_singleton]
      omega
    omega

/-- Length of the content passed to the differ for a run of nonempty
lines: exactly the distance between the two line starts. -/

theorem contentOfLines_length (lines : List (List Byte)) (lo hi : Nat)
    (hlo : lo ≤ hi) (hhi : hi < lines.length)
    (hne : ∀ j, lo ≤ j → j < hi → lines.getD j [] ≠ []) :
    (lineStarts lines).getD lo 0 + (contentOfLines lines lo hi).length =
      (lineStarts lines).getD hi 0 :=
  contentOfLines_length_aux lines (hi - lo) lo hi rfl hlo hhi hne

/-- Disjointness of a span bounded inside one block's line range from any
closing line's range (the block's lines contain no closing line, so a
closing line is entirely before or entirely after the block). -/

theorem block_span_disjoint (lines : List (List Byte)) (mn i h x y aStart aStop : Nat)
    (hx : mn ≤ x) (hxn : x < lines.length) (hyi : y ≤ i) (_hyn : y < lines.length)
    (hh : h < lines.length) (hreg : NoCloser lines mn i)
    (hhdr : classify (lines.getD h []) = Marker.Other)
    (hstart : (lineStarts lines).getD x 0 ≤ aStart)
    (hstop : aStop ≤ (lineStarts lines).getD y 0) :
    aStop ≤ (lineStarts lines).getD h 0 ∨
      (lineStarts lines).getD h 0 + (lines.getD h []).length + 1 ≤ aStart := by
  rcases Nat.lt_or_ge h mn with hcase | hcase
  · right
    have hsucc := lineStarts_succ lines h (by omega)
    have hm := lineStarts_mono lines (h + 1) x (by omega) hxn
    omega
  · rcases Nat.lt_or_ge h i with hmid | hhi2
    · exfalso
      rcases hreg h (by omega) hmid with hc | hc <;> rw [hhdr] at hc <;>
        exact Marker.noConfusion hc
    · left
      have hm := lineStarts_mono lines y h (by omega) hh
      omega

theorem mem_insertAnn (a x : Ann) (l : List Ann) :
    x ∈ insertAnn a l ↔ x = a ∨ x ∈ l := by
  induction l with
  | nil => simp [insertAnn]
  | cons b rest ih =>
    unfold insertAnn
    by_cases hle : annLE a b
    · simp [hle]
    · simp [hle, ih]
      tauto

theorem mem_sortAnns (x : Ann) (l : List Ann) : x ∈ sortAnns l ↔ x ∈ l := by
  induction l with
  | nil => simp [sortAnns]
  | cons a rest ih =>
    unfold sortAnns
    rw [mem_insertAnn]
    simp [ih]

theorem hasPartialOverlap_iff (l : List Ann) :
    hasPartialOverlap l = true ↔ ∃ a ∈ l, ∃ b ∈ l, PartialOverlap a b := by
  simp [hasPartialOverlap, List.any_eq_true]

/-! ### Claim C1: replace-block grouping and background spans -/

/-- C1, counterexample: on the text `"+a\n-b\nx\n"` — an insert line before
a delete line — the code does not start a fresh block at the delete line:
it emits a single block `(1, 0, 2)` whose insert background span `[0, 6)`
covers both line 0 (the insert run, bytes `[0, 3)`) and line 1, which is a
`Delete` line, and whose delete background span is the inverted `[3, 0)`.
The emitted delete/insert background spans do not cover exactly the
delete-run's resp. insert-run's lines. -/

theorem c1_counterexample :
    (highlightDiffCore trivDiffer [43, 97, 10, 45, 98, 10, 120, 10]).blocks =
      [(1, 0, 2)] ∧
    ((highlightDiffCore trivDiffer [43, 97, 10, 45, 98, 10, 120, 10]).anns.map
      (fun a => (a.start, a.stop))) = [(3, 0), (0, 6)] ∧
    classify ((splitNL [43, 97, 10, 45, 98, 10, 120, 10]).getD 1 []) = Marker.Delete ∧
    (lineStarts (splitNL [43, 97, 10, 45, 98, 10, 120, 10])).getD 1 0 = 3 ∧
    (lineStarts (splitNL [43, 97, 10, 45, 98, 10, 120, 10])).getD 2 0 = 6 := by
  decide

/-- C1 (amended): for texts in which, within one group of contiguous
`Delete`/`Insert` lines, no `Insert` line precedes a `Delete` line
(`OrderedGroups`), every emitted block `(d, v, i)` satisfies `d ≤ v ≤ i`,
the lines `[d, v)` are exactly `Delete` lines, the lines `[v, i)` are
exactly `Insert` lines, and the emitted delete background annotation spans
`[starts[d], starts[v])` and the insert background annotation spans
`[starts[v], starts[i])` — i.e. each background span covers exactly its
run's lines. -/

theorem c1_replace_block_spans (differ : Differ) (src : List Byte)
    (hog : OrderedGroups (splitNL src)) :
    ∀ d v i, (d, v, i) ∈ (highlightDiffCore differ src).blocks →
      d ≤ v ∧ v ≤ i ∧
      (∀ j, d ≤ j → j < v → classify ((splitNL src).getD j []) = Marker.Delete) ∧
      (∀ j, v ≤ j → j < i → classify ((splitNL src).getD j []) = Marker.Insert) ∧
      delAnnOf (lineStarts (splitNL src)) (d, v, i) ∈
        (highlightDiffCore differ src).anns ∧
      insAnnOf (lineStarts (splitNL src)) (d, v, i) ∈
        (highlightDiffCore differ src).anns := by
  intro d v i hb
  obtain ⟨hst, hshape, hruns, hmem, hcalls, hanns⟩ :=
    loopInv_run differ (splitNL src) (lineStarts (splitNL src))
  have hsh := hshape (d, v, i) hb
  unfold BlockShape at hsh
  dsimp only at hsh
  have hru := hruns hog (d, v, i) hb
  unfold BlockRuns at hru
  dsimp only at hru
  have hme := hmem (d, v, i) hb
  exact ⟨hru.1, hsh.2.1, hru.2.1, hru.2.2, hme.1, hme.2⟩

/-- Witness for C1 at the text `"-a\n+b\nx\n"`, whose single block is
`(0, 1, 2)`. -/

theorem c1_replace_block_spans_witness :
    delAnnOf (lineStarts (splitNL [45, 97, 10, 43, 98, 10, 120, 10])) (0, 1, 2) ∈
      (highlightDiffCore trivDiffer [45, 97, 10, 43, 98, 10, 120, 10]).anns ∧
    insAnnOf (lineStarts (splitNL [45, 97, 10, 43, 98, 10, 120, 10])) (0, 1, 2) ∈
      (highlightDiffCore trivDiffer [45, 97, 10, 43, 98, 10, 120, 10]).anns :=
  ⟨(c1_replace_block_spans trivDiffer [45, 97, 10, 43, 98, 10, 120, 10]
      (by decide) 0 1 2 (by decide)).2.2.2.2.1,
   (c1_replace_block_spans trivDiffer [45, 97, 10, 43, 98, 10, 120, 10]
      (by decide) 0 1 2 (by decide)).2.2.2.2.2⟩

/-! ### Claim C2: end of the line sequence does not close a block -/

/-- C2, counterexample: the text `"-a"` (no trailing newline) ends while a
delete run is open; the loop ends without closing it — no block and no
annotation is emitted, although the final line is a `Delete` line. -/

theorem c2_counterexample :
    (highlightDiffCore trivDiffer [45, 97]).blocks = [] ∧
    (highlightDiffCore trivDiffer [45, 97]).anns = [] ∧
    classify ((splitNL [45, 97]).getD ((splitNL [45, 97]).length - 1) []) =
      Marker.Delete := by
  decide

/-- C2 (amended): a block is only ever emitted at an actual `Context` or
`Other` line — reaching the end of the line sequence does not close an open
run, so a trailing `Delete`/`Insert` run (text without final newline) emits
no block.  When the text ends with a newline, the final empty line is a
`Context` line and does close any open run: the loop finishes with both
cursors reset. -/

theorem c2_trailing_run (differ : Differ) (src : List Byte) :
    (∀ b ∈ (highlightDiffCore differ src).blocks,
      b.2.2 < (splitNL src).length ∧
      (classify ((splitNL src).getD b.2.2 []) = Marker.Context ∨
        classify ((splitNL src).getD b.2.2 []) = Marker.Other)) ∧
    ((∃ t, src = t ++ [10]) →
      (highlightDiffCore differ src).lastDel = none ∧
      (highlightDiffCore differ src).lastIns = none) := by
  constructor
  · intro b hb
    obtain ⟨_, hshape, _, _, _, _⟩ :=
      loopInv_run differ (splitNL src) (lineStarts (splitNL src))
    have hsh := hshape b hb
    unfold BlockShape at hsh
    exact ⟨hsh.2.2.1, hsh.2.2.2.1⟩
  · rintro ⟨t, rfl⟩
    apply runLines_last_cursor
    · exact splitNL_ne_nil _
    · rw [splitNL_append_newline]
      exact getD_concat_last (splitNL t) [] []

/-- Witness for C2: the block of `"-a\nx\n"` is closed by the `Context`
line `"x"`, and `"-a\n"` (trailing newline) ends with both cursors
reset. -/

theorem c2_trailing_run_witness :
    ((0, 1, 1).2.2 < (splitNL [45, 97, 10, 120, 10]).length ∧
      (classify ((splitNL [45, 97, 10, 120, 10]).getD (0, 1, 1).2.2 []) =
          Marker.Context ∨
        classify ((splitNL [45, 97, 10, 120, 10]).getD (0, 1, 1).2.2 []) =
          Marker.Other)) ∧
    ((highlightDiffCore trivDiffer [45, 97, 10]).lastDel = none ∧
      (highlightDiffCore trivDiffer [45, 97, 10]).lastIns = none) :=
  ⟨(c2_trailing_run trivDiffer [45, 97, 10, 120, 10]).1 (0, 1, 1) (by decide),
   (c2_trailing_run trivDiffer [45, 97, 10]).2 ⟨[45, 97], rfl⟩⟩

/-! ### Claim C3: total line classification -/

/-- C3: line classification is total: a line whose first byte is `-` (45)
is `Delete`, one whose first byte is `+` (43) is `Insert`, and the empty
line — having no first byte, so `lineFirstChar` falls back to 0 — is
`Context`; processing an empty line therefore resets both cursors and, if a
run was open, emits the block it closes. -/

theorem c3_classification_total (differ : Differ) :
    (∀ l : List Byte, lineFirstChar l = 45 → classify l = Marker.Delete) ∧
    (∀ l : List Byte, lineFirstChar l = 43 → classify l = Marker.Insert) ∧
    (∀ l : List Byte, l = [] → classify l = Marker.Context) ∧
    (∀ (lines : List (List Byte)) (starts : List Nat) (i : Nat) (s : LoopState),
      lines.getD i [] = [] →
      (stepLine differ lines starts i s).lastDel = none ∧
      (stepLine differ lines starts i s).lastIns = none ∧
      ((s.lastDel ≠ none ∨ s.lastIns ≠ none) →
        ∃ b, (stepLine differ lines starts i s).blocks = s.blocks ++ [b])) := by
  refine ⟨?_, ?_, ?_, ?_⟩
  · intro l h
    simp [classify, h]
  · intro l h
    simp [classify, h]
  · intro l h
    subst h
    decide
  · intro lines starts i s hempty
    have hcl : classify (lines.getD i []) = Marker.Context := by
      rw [hempty]; decide
    have heq := stepLine_close differ lines starts i s Marker.Context hcl
      (by simp) (by simp)
    cases hd : s.lastDel with
    | none =>
      cases hv : s.lastIns with
      | none =>
        rw [hd, hv] at heq
        rw [heq]
        refine ⟨rfl, rfl, ?_⟩
        intro hcontra
        rcases hcontra with hc | hc
        · exact absurd rfl hc
        · exact absurd rfl hc
      | some v =>
        rw [hd, hv] at heq
        rw [heq]
        exact ⟨rfl, rfl, fun _ => ⟨(v, v, i), emitBlock_blocks differ lines starts i
          Marker.Context v v s⟩⟩
    | some d =>
      cases hv : s.lastIns with
      | none =>
        rw [hd, hv] at heq
        rw [heq]
        exact ⟨rfl, rfl, fun _ => ⟨(d, i, i), emitBlock_blocks differ lines starts i
          Marker.Context d i s⟩⟩
      | some v =>
        rw [hd, hv] at heq
        rw [heq]
        exact ⟨rfl, rfl, fun _ => ⟨(d, v, i), emitBlock_blocks differ lines starts i
          Marker.Context d v s⟩⟩

/-- Witness for C3 at concrete lines and a concrete loop state with an open
delete run. -/

theorem c3_classification_total_witness :
    classify [45, 97] = Marker.Delete ∧
    classify [43, 97] = Marker.Insert ∧
    classify ([] : List Byte) = Marker.Context ∧
    (stepLine trivDiffer [[45, 97], []] [0, 3] 1
      ⟨some 0, none, [], [], []⟩).lastDel = none ∧
    (stepLine trivDiffer [[45, 97], []] [0, 3] 1
      ⟨some 0, none, [], [], []⟩).lastIns = none ∧
    (∃ b, (stepLine trivDiffer [[45, 97], []] [0, 3] 1
      ⟨some 0, none, [], [], []⟩).blocks =
        (⟨some 0, none, [], [], []⟩ : LoopState).blocks ++ [b]) :=
  ⟨(c3_classification_total trivDiffer).1 [45, 97] rfl,
   (c3_classification_total trivDiffer).2.1 [43, 97] rfl,
   (c3_classification_total trivDiffer).2.2.1 [] rfl,
   ((c3_classification_total trivDiffer).2.2.2 [[45, 97], []] [0, 3] 1
     ⟨some 0, none, [], [], []⟩ rfl).1,
   ((c3_classification_total trivDiffer).2.2.2 [[45, 97], []] [0, 3] 1
     ⟨some 0, none, [], [], []⟩ rfl).2.1,
   ((c3_classification_total trivDiffer).2.2.2 [[45, 97], []] [0, 3] 1
     ⟨some 0, none, [], [], []⟩ rfl).2.2 (Or.inl (by simp))⟩

/-! ### Claim C4: the content handed to the intraline differ -/

/-- C4, counterexample: on `"-a\n+b\nx\n"` the single differ invocation
receives `leftContent = [0, 97, 10]` — a NUL byte, then the stripped line,
then a newline — not the claimed bare concatenation `[97, 10]` of the
stripped line and a newline: an extra `0x00` byte is introduced per
line. -/

theorem c4_counterexample :
    (highlightDiffCore trivDiffer [45, 97, 10, 43, 98, 10, 120, 10]).calls =
      [⟨[0, 97, 10], [0, 98, 10], 0, 3⟩] ∧
    ¬ ([0, 97, 10] =
        (((splitNL [45, 97, 10, 43, 98, 10, 120, 10]).getD 0 []).drop 1) ++ [10]) := by
  decide

/-- C4 (amended): every differ invocation belongs to a block `(d, v, i)`
not closed by a header, and its `leftContent` is exactly the concatenation,
over the line indices `[d, v)`, of a NUL byte, the line's bytes with the
leading marker stripped, and a newline; `rightContent` is built the same
way from the lines `[v, i)`; the base offsets are the line starts of `d`
and `v`. -/

theorem c4_intraline_content (differ : Differ) (src : List Byte) :
    ∀ c ∈ (highlightDiffCore differ src).calls,
      ∃ d v i, (d, v, i) ∈ (highlightDiffCore differ src).blocks ∧
        classify ((splitNL src).getD i []) ≠ Marker.Other ∧
        c.leftContent = ((List.range' d (v - d)).map
          (fun j => (0 :: ((splitNL src).getD j []).drop 1) ++ [10])).flatten ∧
        c.rightContent = ((List.range' v (i - v)).map
          (fun j => (0 :: ((splitNL src).getD j []).drop 1) ++ [10])).flatten ∧
        c.baseLeft = (lineStarts (splitNL src)).getD d 0 ∧
        c.baseRight = (lineStarts (splitNL src)).getD v 0 := by
  intro c hc
  obtain ⟨_, _, _, _, hcalls, _⟩ :=
    loopInv_run differ (splitNL src) (lineStarts (splitNL src))
  obtain ⟨⟨d, v, i⟩, hb, hne, hceq⟩ := hcalls c hc
  refine ⟨d, v, i, hb, hne, ?_, ?_, ?_, ?_⟩ <;> rw [hceq] <;> rfl

/-- Witness for C4 at the text `"-a\n+b\nx\n"` and its single differ
invocation. -/

theorem c4_intraline_content_witness :
    ∃ d v i, (d, v, i) ∈
        (highlightDiffCore trivDiffer [45, 97, 10, 43, 98, 10, 120, 10]).blocks ∧
      classify ((splitNL [45, 97, 10, 43, 98, 10, 120, 10]).getD i []) ≠ Marker.Other ∧
      (⟨[0, 97, 10], [0, 98, 10], 0, 3⟩ : IntralineCall).leftContent =
        ((List.range' d (v - d)).map
          (fun j => (0 :: ((splitNL [45, 97, 10, 43, 98, 10, 120, 10]).getD j []).drop 1)
            ++ [10])).flatten ∧
      (⟨[0, 97, 10], [0, 98, 10], 0, 3⟩ : IntralineCall).rightContent =
        ((List.range' v (i - v)).map
          (fun j => (0 :: ((splitNL [45, 97, 10, 43, 98, 10, 120, 10]).getD j []).drop 1)
            ++ [10])).flatten ∧
      (⟨[0, 97, 10], [0, 98, 10], 0, 3⟩ : IntralineCall).baseLeft =
        (lineStarts (splitNL [45, 97, 10, 43, 98, 10, 120, 10])).getD d 0 ∧
      (⟨[0, 97, 10], [0, 98, 10], 0, 3⟩ : IntralineCall).baseRight =
        (lineStarts (splitNL [45, 97, 10, 43, 98, 10, 120, 10])).getD v 0 :=
  c4_intraline_content trivDiffer [45, 97, 10, 43, 98, 10, 120, 10]
    ⟨[0, 97, 10], [0, 98, 10], 0, 3⟩ (by decide)

/-! ### Claim C5: hunk-header lines are isolated -/

/-- C5: (a) closing a block at a hunk-header line (`Other`) invokes no
differ and appends only the two background annotations; (b) every differ
invocation belongs to a block not closed by a header; (c) provided the
external differ keeps its spans inside the content it was given (§6
contract, `DifferInBounds`), no annotation produced for the whole text
intersects the byte range of any hunk-header line. -/

theorem c5_header_isolation (differ : Differ) (hdb : DifferInBounds differ)
    (src : List Byte) :
    (∀ (i : Nat) (s : LoopState),
      classify ((splitNL src).getD i []) = Marker.Other →
      (stepLine differ (splitNL src) (lineStarts (splitNL src)) i s).calls = s.calls ∧
      ((stepLine differ (splitNL src) (lineStarts (splitNL src)) i s).anns = s.anns ∨
        ∃ a1 a2, (stepLine differ (splitNL src) (lineStarts (splitNL src)) i s).anns =
          s.anns ++ [a1, a2])) ∧
    (∀ c ∈ (highlightDiffCore differ src).calls,
      ∃ b ∈ (highlightDiffCore differ src).blocks,
        classify ((splitNL src).getD b.2.2 []) ≠ Marker.Other) ∧
    (∀ a ∈ (highlightDiffCore differ src).anns, ∀ h, h < (splitNL src).length →
      classify ((splitNL src).getD h []) = Marker.Other →
      a.stop ≤ (lineStarts (splitNL src)).getD h 0 ∨
      (lineStarts (splitNL src)).getD h 0 + ((splitNL src).getD h []).length + 1 ≤
        a.start) := by
  obtain ⟨hst, hshape, hruns, hmem, hcalls, hanns⟩ :=
    loopInv_run differ (splitNL src) (lineStarts (splitNL src))
  refine ⟨?_, ?_, ?_⟩
  · intro i s hcl
    have heq := stepLine_close differ (splitNL src) (lineStarts (splitNL src)) i s
      Marker.Other hcl (by simp) (by simp)
    cases hd : s.lastDel with
    | none =>
      cases hv : s.lastIns with
      | none =>
        rw [hd, hv] at heq
        rw [heq]
        exact ⟨rfl, Or.inl rfl⟩
      | some v =>
        rw [hd, hv] at heq
        rw [heq]
        dsimp only
        rw [emitBlock_eq, if_pos rfl]
        exact ⟨rfl, Or.inr ⟨_, _, rfl⟩⟩
    | some d =>
      cases hv : s.lastIns with
      | none =>
        rw [hd, hv] at heq
        rw [heq]
        dsimp only
        rw [emitBlock_eq, if_pos rfl]
        exact ⟨rfl, Or.inr ⟨_, _, rfl⟩⟩
      | some v =>
        rw [hd, hv] at heq
        rw [heq]
        dsimp only
        rw [emitBlock_eq, if_pos rfl]
        exact ⟨rfl, Or.inr ⟨_, _, rfl⟩⟩
  · intro c hc
    obtain ⟨b, hb, hne, _⟩ := hcalls c hc
    exact ⟨b, hb, hne⟩
  · intro a ha h hh hhdr
    rcases hanns a ha with ⟨⟨d, v, i⟩, hb, hor⟩ | ⟨⟨d, v, i⟩, hb, hne, hor⟩
    · have hsh := hshape (d, v, i) hb
      unfold BlockShape at hsh
      dsimp only at hsh
      obtain ⟨h1, h2, h3, h4, h5⟩ := hsh
      rcases hor with hdel | hins
      · subst hdel
        exact block_span_disjoint (splitNL src) (min d v) i h d v _ _
          (Nat.min_le_left d v) (by omega) (by omega) (by omega) hh h5 hhdr
          (Nat.le_refl _) (Nat.le_refl _)
      · subst hins
        exact block_span_disjoint (splitNL src) (min d v) i h v i _ _
          (Nat.min_le_right d v) (by omega) (Nat.le_refl _) (by omega) hh h5 hhdr
          (Nat.le_refl _) (Nat.le_refl _)
    · have hsh := hshape (d, v, i) hb
      unfold BlockShape at hsh
      dsimp only at hsh
      obtain ⟨h1, h2, h3, h4, h5⟩ := hsh
      rcases hor with hseg | hseg
      · obtain ⟨hbl, hstop⟩ := (hdb (contentOfLines (splitNL src) d v)
          (contentOfLines (splitNL src) v i)
          ((lineStarts (splitNL src)).getD d 0)
          ((lineStarts (splitNL src)).getD v 0)).1 a hseg
        rcases Nat.le_total v d with hvd | hdv
        · rw [contentOfLines_nil (splitNL src) d v hvd] at hstop
          simp only [List.length_nil, Nat.add_zero] at hstop
          exact block_span_disjoint (splitNL src) (min d v) i h d d _ _
            (Nat.min_le_left d v) (by omega) (by omega) (by omega) hh h5 hhdr
            hbl hstop
        · have hcl := contentOfLines_length (splitNL src) d v hdv (by omega) ?_
          · exact block_span_disjoint (splitNL src) (min d v) i h d v _ _
              (Nat.min_le_left d v) (by omega) (by omega) (by omega) hh h5 hhdr
              hbl (by omega)
          · intro j hj1 hj2
            exact classify_run_ne_nil _ (h5 j (by omega) (by omega))
      · obtain ⟨hbl, hstop⟩ := (hdb (contentOfLines (splitNL src) d v)
          (contentOfLines (splitNL src) v i)
          ((lineStarts (splitNL src)).getD d 0)
          ((lineStarts (splitNL src)).getD v 0)).2 a hseg
        have hcl := contentOfLines_length (splitNL src) v i h2 h3 ?_
        · exact block_span_disjoint (splitNL src) (min d v) i h v i _ _
            (Nat.min_le_right d v) (by omega) (Nat.le_refl _) (by omega) hh h5 hhdr
            hbl (by omega)
        · intro j hj1 hj2
          exact classify_run_ne_nil _ (h5 j (by omega) (by omega))

/-- Witness for C5 at the text `"-a\n+b\n@h\n"`: the header line at index
2 closes the block with only background annotations and no differ call,
and the background annotation `[0, 3)` is disjoint from the header line's
range. -/

theorem c5_header_isolation_witness :
    ((stepLine trivDiffer (splitNL [45, 97, 10, 43, 98, 10, 64, 104, 10])
        (lineStarts (splitNL [45, 97, 10, 43, 98, 10, 64, 104, 10])) 2
        ⟨some 0, some 1, [], [], []⟩).calls =
      (⟨some 0, some 1, [], [], []⟩ : LoopState).calls ∧
      ((stepLine trivDiffer (splitNL [45, 97, 10, 43, 98, 10, 64, 104, 10])
          (lineStarts (splitNL [45, 97, 10, 43, 98, 10, 64, 104, 10])) 2
          ⟨some 0, some 1, [], [], []⟩).anns =
        (⟨some 0, some 1, [], [], []⟩ : LoopState).anns ∨
        ∃ a1 a2, (stepLine trivDiffer (splitNL [45, 97, 10, 43, 98, 10, 64, 104, 10])
          (lineStarts (splitNL [45, 97, 10, 43, 98, 10, 64, 104, 10])) 2
          ⟨some 0, some 1, [], [], []⟩).anns =
          (⟨some 0, some 1, [], [], []⟩ : LoopState).anns ++ [a1, a2])) ∧
    ((⟨0, 3, gdOpen, spanClose, 0⟩ : Ann).stop ≤
        (lineStarts (splitNL [45, 97, 10, 43, 98, 10, 64, 104, 10])).getD 2 0 ∨
      (lineStarts (splitNL [45, 97, 10, 43, 98, 10, 64, 104, 10])).getD 2 0 +
        ((splitNL [45, 97, 10, 43, 98, 10, 64, 104, 10]).getD 2 []).length + 1 ≤
        (⟨0, 3, gdOpen, spanClose, 0⟩ : Ann).start) :=
  ⟨(c5_header_isolation trivDiffer
      (by intro lc rc bl br; constructor <;> intro a ha <;> simp [trivDiffer] at ha)
      [45, 97, 10, 43, 98, 10, 64, 104, 10]).1 2 ⟨some 0, some 1, [], [], []⟩
      (by decide),
   (c5_header_isolation trivDiffer
      (by intro lc rc bl br; constructor <;> intro a ha <;> simp [trivDiffer] at ha)
      [45, 97, 10, 43, 98, 10, 64, 104, 10]).2.2 ⟨0, 3, gdOpen, spanClose, 0⟩
      (by decide) 2 (by decide) (by decide)⟩

/-! ### Claim C6: partially overlapping annotations are rejected -/

/-- C6: whenever the collected annotation set contains two annotations
that partially overlap (their ranges cross without nesting), the model of
`highlightDiff` returns the overlap error and nil (`none`) output bytes —
the set is rejected, not repaired. -/

theorem c6_overlap_rejected (differ : Differ) (src : List Byte)
    (h : ∃ a ∈ fullAnns differ src, ∃ b ∈ fullAnns differ src, PartialOverlap a b) :
    highlightDiffModel differ src = (none, some "annotations overlap") := by
  have hov : hasPartialOverlap (sortAnns (fullAnns differ src)) = true := by
    rw [hasPartialOverlap_iff]
    obtain ⟨a, ha, b, hb, hab⟩ := h
    exact ⟨a, (mem_sortAnns a _).mpr ha, b, (mem_sortAnns b _).mpr hb, hab⟩
  unfold highlightDiffModel annotateModel
  rw [if_pos hov]

/-- Witness for C6: a differ output with two crossing spans `[1, 5)` and
`[3, 8)` on the text `"-a\nx\n"` makes the model reject with the overlap
error and `none` output. -/

theorem c6_overlap_rejected_witness :
    highlightDiffModel (fun _ _ _ _ => ([⟨1, 5, "", "", 0⟩], [⟨3, 8, "", "", 0⟩]))
      [45, 97, 10, 120, 10] = (none, some "annotations overlap") :=
  c6_overlap_rejected (fun _ _ _ _ => ([⟨1, 5, "", "", 0⟩], [⟨3, 8, "", "", 0⟩]))
    [45, 97, 10, 120, 10] (by decide)

/-! ### Claim C8: determinism -/

/-- C8: the model of `highlightDiff` is a pure function: two runs on equal
input byte sequences return the same output bytes and the same error.
(Absence of in-place mutation of the input slice is inherent to the
embedding: the input is only ever read.) -/

theorem c8_deterministic (differ : Differ) (src₁ src₂ : List Byte)
    (h : src₁ = src₂) :
    highlightDiffModel differ src₁ = highlightDiffModel differ src₂ := by
  rw [h]

/-- Witness for C8 at a concrete text. -/

theorem c8_deterministic_witness :
    highlightDiffModel trivDiffer [45, 97, 10] = highlightDiffModel trivDiffer [45, 97, 10] :=
  c8_deterministic trivDiffer [45, 97, 10] [45, 97, 10] rfl

/-! ### Claim C9: degenerate blocks get a zero-width counterpart span -/

/-- C9: a block closed while only an insert run is open still emits both
background annotations; the delete background is the zero-width span
`[starts[v], starts[v])` at the insert run's start.  Symmetrically, a block
with only a delete run open gets the zero-width insert background
`[starts[i], starts[i])` at the closing line's offset. -/

theorem c9_degenerate_blocks (differ : Differ) (lines : List (List Byte))
    (starts : List Nat) (i : Nat) (s : LoopState)
    (hcl : classify (lines.getD i []) = Marker.Context ∨
      classify (lines.getD i []) = Marker.Other) :
    (∀ v, s.lastDel = none → s.lastIns = some v →
      ∃ rest, (stepLine differ lines starts i s).anns =
        s.anns ++ [⟨starts.getD v 0, starts.getD v 0, gdOpen, spanClose, 0⟩,
          ⟨starts.getD v 0, starts.getD i 0, giOpen, spanClose, 0⟩] ++ rest) ∧
    (∀ d, s.lastDel = some d → s.lastIns = none →
      ∃ rest, (stepLine differ lines starts i s).anns =
        s.anns ++ [⟨starts.getD d 0, starts.getD i 0, gdOpen, spanClose, 0⟩,
          ⟨starts.getD i 0, starts.getD i 0, giOpen, spanClose, 0⟩] ++ rest) := by
  have hmain : ∀ m, classify (lines.getD i []) = m → m ≠ Marker.Insert →
      m ≠ Marker.Delete →
      (∀ v, s.lastDel = none → s.lastIns = some v →
        ∃ rest, (stepLine differ lines starts i s).anns =
          s.anns ++ [⟨starts.getD v 0, starts.getD v 0, gdOpen, spanClose, 0⟩,
            ⟨starts.getD v 0, starts.getD i 0, giOpen, spanClose, 0⟩] ++ rest) ∧
      (∀ d, s.lastDel = some d → s.lastIns = none →
        ∃ rest, (stepLine differ lines starts i s).anns =
          s.anns ++ [⟨starts.getD d 0, starts.getD i 0, gdOpen, spanClose, 0⟩,
            ⟨starts.getD i 0, starts.getD i 0, giOpen, spanClose, 0⟩] ++ rest) := by
    intro m hclm hmI hmD
    have heq := stepLine_close differ lines starts i s m hclm hmI hmD
    constructor
    · intro v hd hv
      rw [hd, hv] at heq
      rw [heq]
      dsimp only
      rw [emitBlock_eq]
      by_cases hm : m = Marker.Other
      · rw [if_pos hm]
        exact ⟨[], by simp [delAnnOf, insAnnOf]⟩
      · rw [if_neg hm]
        refine ⟨(segsOf differ lines starts (v, v, i)).1 ++
          (segsOf differ lines starts (v, v, i)).2, ?_⟩
        simp [delAnnOf, insAnnOf]
    · intro d hd hv
      rw [hd, hv] at heq
      rw [heq]
      dsimp only
      rw [emitBlock_eq]
      by_cases hm : m = Marker.Other
      · rw [if_pos hm]
        exact ⟨[], by simp [delAnnOf, insAnnOf]⟩
      · rw [if_neg hm]
        refine ⟨(segsOf differ lines starts (d, i, i)).1 ++
          (segsOf differ lines starts (d, i, i)).2, ?_⟩
        simp [delAnnOf, insAnnOf]
  rcases hcl with hcl | hcl
  · exact hmain Marker.Context hcl (by simp) (by simp)
  · exact hmain Marker.Other hcl (by simp) (by simp)

/-- Witness for C9: a pure-insert block on `"+a\nx"` and a pure-delete
block on `"-a\nx"`, both closed at line 1. -/

theorem c9_degenerate_blocks_witness :
    (∃ rest, (stepLine trivDiffer [[43, 97], [120]] [0, 3] 1
      ⟨none, some 0, [], [], []⟩).anns =
      [] ++ [⟨0, 0, gdOpen, spanClose, 0⟩, ⟨0, 3, giOpen, spanClose, 0⟩] ++ rest) ∧
    (∃ rest, (stepLine trivDiffer [[45, 97], [120]] [0, 3] 1
      ⟨some 0, none, [], [], []⟩).anns =
      [] ++ [⟨0, 3, gdOpen, spanClose, 0⟩, ⟨3, 3, giOpen, spanClose, 0⟩] ++ rest) :=
  ⟨(c9_degenerate_blocks trivDiffer [[43, 97], [120]] [0, 3] 1
      ⟨none, some 0, [], [], []⟩ (Or.inl (by decide))).1 0 rfl rfl,
   (c9_degenerate_blocks trivDiffer [[45, 97], [120]] [0, 3] 1
      ⟨some 0, none, [], [], []⟩ (Or.inl (by decide))).2 0 rfl rfl⟩

/-! ### Claim C10: unknown timeline item types panic -/

/-- C10: for a `timelineItem` wrapping neither an `issues.Comment` nor an
`issues.Event`, each of `TemplateName`, `CreatedAt` and `ID` panics with an
"unknown item type" error instead of returning a value. -/

theorem c10_unknown_item_panics (t : timelineItem)
    (hc : ∀ c, t.TimelineItem ≠ TimelineItemValue.comment c)
    (he : ∀ e, t.TimelineItem ≠ TimelineItemValue.event e) :
    ∃ nm, t.TimelineItem = TimelineItemValue.other nm ∧
      t.TemplateName = Except.error ("unknown item type " ++ nm) ∧
      t.CreatedAt = Except.error ("unknown item type " ++ nm) ∧
      t.ID = Except.error ("unknown item type " ++ nm) := by
  obtain ⟨tv⟩ := t
  cases tv with
  | comment c => exact absurd rfl (hc c)
  | event e => exact absurd rfl (he e)
  | other nm => exact ⟨nm, rfl, rfl, rfl, rfl⟩

/-- Witness for C10 at a concrete unknown wrapped value. -/

theorem c10_unknown_item_panics_witness :
    ∃ nm, (timelineItem.mk (TimelineItemValue.other "bool")).TimelineItem =
        TimelineItemValue.other nm ∧
      (timelineItem.mk (TimelineItemValue.other "bool")).TemplateName =
        Except.error ("unknown item type " ++ nm) ∧
      (timelineItem.mk (TimelineItemValue.other "bool")).CreatedAt =
        Except.error ("unknown item type " ++ nm) ∧
      (timelineItem.mk (TimelineItemValue.other "bool")).ID =
        Except.error ("unknown item type " ++ nm) :=
  c10_unknown_item_panics (timelineItem.mk (TimelineItemValue.other "bool"))
    (fun _ h => nomatch h) (fun _ h => nomatch h)

end Changes

